import Mathlib

/-!
Verification of the gitgather selection engine (`apply_filters`) and tree
builder (`capture_tree_output`) from `src/gitgather/gather.py`.

The Python code manipulates POSIX path strings through `os.path.relpath`,
`os.path.basename`, `os.path.join`, `str.split`, `str.startswith` and
`fnmatch.fnmatch`.  Those library functions are modelled here over `String`
(internally over `List Char`), assuming the POSIX separator "/" and an
absolute current working directory `cwd` (Python's `os.path.relpath` makes
its arguments absolute against the process working directory, so the
embedding threads `cwd` as an explicit parameter).  The directory-existence
test `os.path.isdir` used by the tree builder is injected as a predicate
`isDir : String → Bool`, as the spec prescribes for this side-effecting
query.
-/

namespace GitGather

/-- Split a list of characters at every occurrence of `c`
(model of Python `str.split` with a one-character separator:
empty fields are kept, so splitting the empty string yields one
empty field). -/
def splitOnChar (c : Char) : List Char → List (List Char)
  | [] => [[]]
  | x :: xs =>
    let r := splitOnChar c xs
    if x = c then [] :: r
    else
      match r with
      | [] => [[x]]
      | h :: t => (x :: h) :: t

/-- Split a path string on the POSIX separator, keeping empty fields
(Python `path.split(os.sep)`). -/
def strSplit (s : String) : List String :=
  (splitOnChar '/' s.data).map (fun l => String.mk l)

/-- The non-empty components of a path (the list comprehension
`[x for x in p.split(sep) if x]` used by `posixpath.relpath`). -/
def splitSegs (p : String) : List String :=
  (strSplit p).filter (fun s => s ≠ "")

/-- Whether a path is absolute (Python `os.path.isabs` on POSIX). -/
def isAbs (p : String) : Bool :=
  p.data.head? = some '/'

/-- Resolve `.` and `..` components of an absolute path, as
`posixpath.normpath` does after `abspath` (components above the root
are dropped). -/
def normSegs (segs : List String) : List String :=
  segs.foldl
    (fun acc s =>
      if s = "." then acc
      else if s = ".." then acc.dropLast
      else acc ++ [s])
    []

/-- The component list of `os.path.abspath(p)` relative to the absolute
working directory `cwd` (Python resolves relative paths against the
process working directory before computing `relpath`). -/
def absSegs (cwd p : String) : List String :=
  if isAbs p then normSegs (splitSegs p)
  else normSegs (splitSegs cwd ++ splitSegs p)

/-- Length of the longest common prefix of two component lists
(`genericpath.commonprefix` applied to the two split paths). -/
def commonSegsLen : List String → List String → Nat
  | a :: as, b :: bs => if a = b then commonSegsLen as bs + 1 else 0
  | _, _ => 0

/-- Join path components with the POSIX separator. -/
def joinSegs : List String → String
  | [] => ""
  | [s] => s
  | s :: rest => s ++ "/" ++ joinSegs rest

/-- Model of `os.path.relpath(path, start)` on POSIX: make both arguments
absolute against `cwd`, drop the common prefix, and climb with `..` for
the remaining components of `start`. -/
def relpath (cwd path start : String) : String :=
  let pl := absSegs cwd path
  let sl := absSegs cwd start
  let i := commonSegsLen sl pl
  let rel := List.replicate (sl.length - i) ".." ++ pl.drop i
  if rel.isEmpty then "." else joinSegs rel

/-- Model of `os.path.basename` on POSIX: everything after the last
separator. -/
def basename (p : String) : String :=
  match (strSplit p).getLast? with
  | some s => s
  | none => ""

/-- Model of Python `str.startswith`. -/
def strStartsWith (s pre : String) : Bool :=
  pre.data.isPrefixOf s.data

/-- Model of Python `str.endswith`. -/
def strEndsWith (s suf : String) : Bool :=
  suf.data.isSuffixOf s.data

/-- Model of `os.path.join(a, b)` on POSIX for two arguments. -/
def pjoin (a b : String) : String :=
  if isAbs b then b
  else if a = "" || strEndsWith a "/" then a ++ b
  else a ++ "/" ++ b

/-! ### `fnmatch.fnmatch`

`fnmatch` translates the pattern into a regular expression where `*`
matches any run of characters (including separators), `?` matches any
single character and `[...]` matches a character class (`[!...]`
negated); on POSIX `normcase` is the identity, so matching is
case-sensitive.  The pattern is parsed into a token list and matched
against the whole name.  Both the parser and the matcher take a fuel
argument so that they are structurally recursive; the initial fuel is
an upper bound on the number of recursion steps, so it is never
exhausted. -/

/-- One token of a compiled shell-style pattern. -/
inductive GlobTok where
  | star : GlobTok
  | anyc : GlobTok
  | lit : Char → GlobTok
  | cls : Bool → List (Char × Char) → GlobTok
  deriving DecidableEq

/-- Parse the body of a character class into ranges: `a-z` is a range,
a lone character `c` is the degenerate range `c-c`, and a `-` that does
not sit between two characters is literal. -/
def parseClassItems : List Char → List (Char × Char)
  | a :: '-' :: b :: rest => (a, b) :: parseClassItems rest
  | a :: rest => (a, a) :: parseClassItems rest
  | [] => []

/-- Scan for the closing `]` of a character class, returning the body
and the remainder of the pattern. -/
def scanTo : List Char → Option (List Char × List Char)
  | [] => none
  | ']' :: rest => some ([], rest)
  | c :: rest =>
    match scanTo rest with
    | some pr => some (c :: pr.1, pr.2)
    | none => none

/-- Interpret the characters following `[`: a leading `!` negates the
class, and a `]` in first position is a literal member (as in
`fnmatch.translate`); returns `none` when no closing `]` exists, in
which case the `[` itself is literal. -/
def scanClass (rest : List Char) : Option (Bool × List Char × List Char) :=
  match rest with
  | '!' :: ']' :: r3 =>
    match scanTo r3 with
    | some pr => some (true, ']' :: pr.1, pr.2)
    | none => none
  | '!' :: r2 =>
    match scanTo r2 with
    | some pr => some (true, pr.1, pr.2)
    | none => none
  | ']' :: r3 =>
    match scanTo r3 with
    | some pr => some (false, ']' :: pr.1, pr.2)
    | none => none
  | r2 =>
    match scanTo r2 with
    | some pr => some (false, pr.1, pr.2)
    | none => none

/-- Fuel-indexed pattern parser; every step consumes at least one
character, so fuel equal to the pattern length suffices. -/
def parseGlobF : Nat → List Char → List GlobTok
  | 0, _ => []
  | _, [] => []
  | f + 1, '*' :: rest => GlobTok.star :: parseGlobF f rest
  | f + 1, '?' :: rest => GlobTok.anyc :: parseGlobF f rest
  | f + 1, '[' :: rest =>
    (match scanClass rest with
     | some pr => GlobTok.cls pr.1 (parseClassItems pr.2.1) :: parseGlobF f pr.2.2
     | none => GlobTok.lit '[' :: parseGlobF f rest)
  | f + 1, c :: rest => GlobTok.lit c :: parseGlobF f rest

/-- Compile a pattern string into tokens. -/
def parseGlob (pat : String) : List GlobTok :=
  parseGlobF pat.data.length pat.data

/-- Fuel-indexed matcher of a token list against a character list; every
step shrinks `tokens.length + chars.length`, so fuel exceeding that sum
suffices. -/
def globMatchF : Nat → List GlobTok → List Char → Bool
  | 0, _, _ => false
  | _ + 1, [], cs => cs.isEmpty
  | f + 1, GlobTok.star :: ts, [] => globMatchF f ts []
  | f + 1, GlobTok.star :: ts, c :: cs =>
    globMatchF f ts (c :: cs) || globMatchF f (GlobTok.star :: ts) cs
  | _ + 1, GlobTok.anyc :: _, [] => false
  | f + 1, GlobTok.anyc :: ts, _ :: cs => globMatchF f ts cs
  | _ + 1, GlobTok.lit _ :: _, [] => false
  | f + 1, GlobTok.lit a :: ts, c :: cs => a = c && globMatchF f ts cs
  | _ + 1, GlobTok.cls _ _ :: _, [] => false
  | f + 1, GlobTok.cls neg items :: ts, c :: cs =>
    (if items.any (fun pr => decide (pr.1 ≤ c) && decide (c ≤ pr.2)) then !neg else neg)
      && globMatchF f ts cs

/-- Model of `fnmatch.fnmatch(nm, pat)` on POSIX. -/
def fnmatch (nm pat : String) : Bool :=
  let ts := parseGlob pat
  globMatchF (ts.length + nm.data.length + 1) ts nm.data

/-! ### The selection engine `apply_filters` -/

/-- Model of `is_glob_pattern` from `gather.py`: a pattern is a glob when it
contains one of the metacharacters `* ? [ ]`. -/
def is_glob_pattern (pattern : String) : Bool :=
  "*?[]".data.any (fun c => pattern.data.contains c)

/-- The helper `is_excluded` of `apply_filters`: the raw path equals an
exact exclude pattern, or its root-relative form equals one, or the
relative form lies under a directory named by one. -/
def is_excluded (cwd repo_path : String) (exclude_files : List String) (path : String) : Bool :=
  if exclude_files.contains path then true
  else
    let rel_path := relpath cwd path repo_path
    exclude_files.any (fun pattern => rel_path == pattern)
      || exclude_files.any (fun pattern => strStartsWith rel_path (pattern ++ "/"))

/-- The helper `is_included` of `apply_filters`: the raw path equals an
exact include pattern, or the relative form lies under a directory named
by one, or the path's basename equals one. -/
def is_included (cwd repo_path : String) (include_files : List String) (path : String) : Bool :=
  if include_files.contains path then true
  else
    let rel_path := relpath cwd path repo_path
    include_files.any (fun pattern => strStartsWith rel_path (pattern ++ "/"))
      || include_files.any (fun pattern => basename path == pattern)

/-- The helper `matches_glob` of `apply_filters`: the root-relative form
matches one of the glob patterns. -/
def matches_glob (cwd repo_path : String) (glob_patterns : List String) (path : String) : Bool :=
  let rel_path := relpath cwd path repo_path
  glob_patterns.any (fun pattern => fnmatch rel_path pattern)

/-- The per-path decision of the `apply_filters` loop: exact exclusion
first, then exact inclusion, then glob evaluation (with the
include-everything default when there is no include glob). -/
def keep_path (cwd repo_path : String) (include_patterns exclude_patterns : List String)
    (path : String) : Bool :=
  let include_globs := include_patterns.filter (fun p => is_glob_pattern p)
  let include_files := include_patterns.filter (fun p => !is_glob_pattern p)
  let exclude_globs := exclude_patterns.filter (fun p => is_glob_pattern p)
  let exclude_files := exclude_patterns.filter (fun p => !is_glob_pattern p)
  if is_excluded cwd repo_path exclude_files path then false
  else if is_included cwd repo_path include_files path then true
  else if include_globs.isEmpty then !matches_glob cwd repo_path exclude_globs path
  else matches_glob cwd repo_path include_globs path
    && !matches_glob cwd repo_path exclude_globs path

/-- Model of `apply_filters` from `gather.py`: the loop appends `path` to the
result exactly when no `continue`-without-append branch fires, i.e. it
filters the input by `keep_path`, preserving order. -/
def apply_filters (cwd : String) (paths : List String) (repo_path : String)
    (include_patterns exclude_patterns : List String) : List String :=
  paths.filter (fun path => keep_path cwd repo_path include_patterns exclude_patterns path)

/-! ### The tree builder `capture_tree_output`

The Python code inserts the root-relative split of every selected path
into a nested `dict` and then renders it recursively, partitioning each
node's children into empty directories, directories with entries, and
files.  Python dicts are modelled as association lists with unique keys
(insertion order of keys is irrelevant to the rendering because every
bucket is sorted before emission).  The renderer takes a fuel argument
so that it is structurally recursive; `capture_tree_output` passes one
more than the total number of inserted path components, which exceeds
the depth of the tree. -/

/-- A node of the nested dictionary `path_tree` built in
`capture_tree_output`: the ordered children mapping. -/
inductive PTree where
  | node : List (String × PTree) → PTree

/-- The children association list of a node. -/
def PTree.children : PTree → List (String × PTree)
  | PTree.node cs => cs

/-- Update the binding of `part` in a children list, applying `f` to the
existing subtree, or to a fresh empty node if `part` is absent (the
effect of `if part not in current_level: current_level[part] = {}`
followed by descending into `current_level[part]`). -/
def updateChild : List (String × PTree) → String → (PTree → PTree) → List (String × PTree)
  | [], part, f => [(part, f (PTree.node []))]
  | (k, v) :: tl, part, f =>
    if k = part then (k, f v) :: tl else (k, v) :: updateChild tl part f

/-- Insert one split path into the tree, creating intermediate nodes as
needed. -/
def insertParts : List String → PTree → PTree
  | [], t => t
  | part :: rest, t =>
    PTree.node (updateChild t.children part (fun sub => insertParts rest sub))

/-- Build `path_tree` from the selected paths: each path is converted to
its root-relative form, split on the separator, and inserted. -/
def buildPathTree (cwd repo_path : String) (paths : List String) : PTree :=
  paths.foldl (fun t p => insertParts (strSplit (relpath cwd p repo_path)) t) (PTree.node [])

/-- Pattern-insensitive string order used for Python `sorted` on names
(and on `(name, subtree)` tuples, whose comparison never reaches the
subtree because keys are distinct). -/
def nameLe (a b : String × PTree) : Prop := a.1 ≤ b.1

instance : DecidableRel nameLe := fun a b => inferInstanceAs (Decidable (a.1 ≤ b.1))

instance : IsTotal (String × PTree) nameLe := ⟨fun a b => le_total a.1 b.1⟩

instance : IsTrans (String × PTree) nameLe := ⟨fun _ _ _ h₁ h₂ => le_trans h₁ h₂⟩

instance : IsTotal String (fun a b : String => a ≤ b) := ⟨fun a b => le_total a b⟩

instance : IsTrans String (fun a b : String => a ≤ b) := ⟨fun _ _ _ => le_trans⟩

instance : IsAntisymm String (fun a b : String => a ≤ b) := ⟨fun _ _ => le_antisymm⟩

/-- The sorted empty-directory bucket of a children list: children with
no sub-entries whose bare name joined to the repository root is a
directory. -/
def emptyDirsOf (isDir : String → Bool) (repo : String)
    (cs : List (String × PTree)) : List String :=
  List.insertionSort (fun a b : String => a ≤ b)
    ((cs.filter (fun pr => pr.2.children.isEmpty && isDir (pjoin repo pr.1))).map Prod.fst)

/-- The sorted directories-with-entries bucket of a children list. -/
def dirsWithFilesOf (cs : List (String × PTree)) : List (String × PTree) :=
  List.insertionSort nameLe (cs.filter (fun pr => !pr.2.children.isEmpty))

/-- The sorted files bucket of a children list: children with no
sub-entries whose bare name joined to the root is not a directory. -/
def filesOf (isDir : String → Bool) (repo : String)
    (cs : List (String × PTree)) : List String :=
  List.insertionSort (fun a b : String => a ≤ b)
    ((cs.filter (fun pr => pr.2.children.isEmpty && !isDir (pjoin repo pr.1))).map Prod.fst)

/-- The `for i, (name, subtree) in enumerate(sorted(dirs_with_files))`
loop of `build_tree`: `i == len - 1` is equivalent to the tail being
empty, and the final entry is terminal only when the files bucket is
empty. -/
def renderDirsAux (render : PTree → String → List String) (pfx : String)
    (filesEmpty : Bool) : List (String × PTree) → List String
  | [] => []
  | (name, sub) :: tl =>
    let isLast := tl.isEmpty && filesEmpty
    (pfx ++ (if isLast then "└── " else "├── ") ++ name)
      :: (render sub (pfx ++ (if isLast then "    " else "│   "))
          ++ renderDirsAux render pfx filesEmpty tl)

/-- Variant of the directories loop whose callback also receives the
child's name (used by the accumulated-path renderer below). -/
def renderDirsNamedAux (render : String × PTree → String → List String) (pfx : String)
    (filesEmpty : Bool) : List (String × PTree) → List String
  | [] => []
  | (name, sub) :: tl =>
    let isLast := tl.isEmpty && filesEmpty
    (pfx ++ (if isLast then "└── " else "├── ") ++ name)
      :: (render (name, sub) (pfx ++ (if isLast then "    " else "│   "))
          ++ renderDirsNamedAux render pfx filesEmpty tl)

/-- The `for i, name in enumerate(sorted(files))` loop of `build_tree`:
the final file is always terminal. -/
def renderFilesAux (pfx : String) : List String → List String
  | [] => []
  | name :: tl =>
    (pfx ++ (if tl.isEmpty then "└── " else "├── ") ++ name) :: renderFilesAux pfx tl

/-- The recursive `build_tree` renderer, indexed by fuel (one unit per
nesting level).  Note that the directory-existence check receives
`os.path.join(repo_path, name)` for the bare child `name`, at every
depth. -/
def renderTreeF (isDir : String → Bool) (repo : String) : Nat → PTree → String → List String
  | 0, _, _ => []
  | fuel + 1, t, pfx =>
    (emptyDirsOf isDir repo t.children).map (fun name => pfx ++ "├── " ++ name)
      ++ renderDirsAux (fun sub p => renderTreeF isDir repo fuel sub p) pfx
          (filesOf isDir repo t.children).isEmpty (dirsWithFilesOf t.children)
      ++ renderFilesAux pfx (filesOf isDir repo t.children)

/-- Join rendered lines with newlines (`"\n".join(tree_lines)`). -/
def joinNL : List String → String
  | [] => ""
  | [s] => s
  | s :: rest => s ++ "\n" ++ joinNL rest

/-- Model of `capture_tree_output` from `gather.py`: build the nested tree from
the filtered paths and render it below the root line `.`.  The fuel
passed to the renderer strictly exceeds the number of inserted
components, hence the depth of the tree. -/
def capture_tree_output (isDir : String → Bool) (cwd repo_path : String)
    (paths : List String) : String :=
  let t := buildPathTree cwd repo_path paths
  let fuel := 1 + (paths.map (fun p => (strSplit (relpath cwd p repo_path)).length)).sum
  joinNL ("." :: renderTreeF isDir repo_path fuel t "")

/-- Modelled from the spec (§4.2 step 2, the reading asserted by claim
C4): a variant renderer identical to `renderTreeF` except that the
directory-existence check receives the repository root joined with the
accumulated relative path from the root down to the child, rather than
the child's bare name.  Used only to compare the code's behaviour with
the spec's words. -/
def renderTreeAccumF (isDir : String → Bool) (repo : String) :
    Nat → PTree → String → String → List String
  | 0, _, _, _ => []
  | fuel + 1, t, accum, pfx =>
    let joinAccum := fun (name : String) => if accum = "" then name else accum ++ "/" ++ name
    let empty_dirs := List.insertionSort (fun a b : String => a ≤ b)
      ((t.children.filter
          (fun pr => pr.2.children.isEmpty && isDir (pjoin repo (joinAccum pr.1)))).map Prod.fst)
    let files := List.insertionSort (fun a b : String => a ≤ b)
      ((t.children.filter
          (fun pr => pr.2.children.isEmpty && !isDir (pjoin repo (joinAccum pr.1)))).map Prod.fst)
    let dirs := List.insertionSort nameLe (t.children.filter (fun pr => !pr.2.children.isEmpty))
    (empty_dirs.map (fun name => pfx ++ "├── " ++ name))
      ++ renderDirsNamedAux
          (fun pr p => renderTreeAccumF isDir repo fuel pr.2 (joinAccum pr.1) p)
          pfx files.isEmpty dirs
      ++ renderFilesAux pfx files

/-- The spec-side variant of `capture_tree_output`, classifying empty
directories by the accumulated path (claim C4's reading). -/
def capture_tree_output_accum (isDir : String → Bool) (cwd repo_path : String)
    (paths : List String) : String :=
  let t := buildPathTree cwd repo_path paths
  let fuel := 1 + (paths.map (fun p => (strSplit (relpath cwd p repo_path)).length)).sum
  joinNL ("." :: renderTreeAccumF isDir repo_path fuel t "" "")

/-! ### C9: bucket order and connectors of one rendered node

The claim describes the lines a node emits in terms of first/last
elements of the three sorted buckets; the following definitions state
that description directly (all-but-last versus last via `dropLast` and
`getLast?`), and the theorem proves it equal to what the
enumerate-style loops of `build_tree` produce. -/

/-- Claim-side description of the empty-directory lines: every one gets
the branch connector, never the terminal one. -/
def specEmptyDirLines (pfx : String) (ed : List String) : List String :=
  ed.map (fun name => pfx ++ "├── " ++ name)

/-- The lines one directory-with-entries child contributes: its own
line followed by its recursively rendered subtree. -/
def specDirBlock (render : PTree → String → List String) (pfx : String) (isLast : Bool)
    (pr : String × PTree) : List String :=
  (pfx ++ (if isLast then "└── " else "├── ") ++ pr.1)
    :: render pr.2 (pfx ++ (if isLast then "    " else "│   "))

/-- Claim-side description of the directories-with-entries lines: every
entry but the last uses the branch connector; the last is terminal
exactly when the files bucket is empty. -/
def specDirLines (render : PTree → String → List String) (pfx : String) (filesEmpty : Bool)
    (l : List (String × PTree)) : List String :=
  (l.dropLast.map (specDirBlock render pfx false)).flatten
    ++ (match l.getLast? with
        | none => []
        | some pr => specDirBlock render pfx filesEmpty pr)

/-- Claim-side description of the file lines: every file but the last
uses the branch connector; the last is always terminal. -/
def specFileLines (pfx : String) (fs : List String) : List String :=
  fs.dropLast.map (fun name => pfx ++ "├── " ++ name)
    ++ (match fs.getLast? with
        | none => []
        | some name => [pfx ++ "└── " ++ name])

/-! ### Machinery for the order-independence of the tree builder (C5)

A Python `dict` is insensitive to the insertion order of its keys; the
association lists of `PTree` are not, so order-independence of
`capture_tree_output` is proved through an equivalence relation
(`PEquiv`: equal key sets with recursively equivalent values, expressed
through lookups) together with the well-formedness invariant that every
children list binds each key once (`WFT`), which `insertParts`
maintains exactly as the dict does. -/

/-- The keys of a children list. -/
def keysOf (cs : List (String × PTree)) : List String :=
  cs.map Prod.fst

/-- Lookup of a key in a children list (first binding wins, as in a
Python dict where keys are unique anyway). -/
def lookupC : List (String × PTree) → String → Option PTree
  | [], _ => none
  | (k, v) :: tl, key => if k = key then some v else lookupC tl key

/-- Trees are equivalent when every key resolves in both or in neither,
and resolved subtrees are recursively equivalent.  This is dict
equality up to the irrelevant key insertion order. -/
inductive PEquiv : PTree → PTree → Prop where
  | node : ∀ cs₁ cs₂,
      (∀ k, Option.Rel PEquiv (lookupC cs₁ k) (lookupC cs₂ k)) →
      PEquiv (PTree.node cs₁) (PTree.node cs₂)

/-- Well-formed trees: every children list binds each key at most once
(the invariant of trees built from a Python dict). -/
inductive WFT : PTree → Prop where
  | node : ∀ cs, (keysOf cs).Nodup → (∀ pr ∈ cs, WFT pr.2) → WFT (PTree.node cs)

/-! ### Lemmas about the selection engine -/

/-- The non-glob sublist of a pattern list contains `pat` whenever `pat`
is a non-glob member of the list. -/
theorem mem_exact_filter {pats : List String} {pat : String}
    (hmem : pat ∈ pats) (hglob : is_glob_pattern pat = false) :
    pat ∈ pats.filter (fun q => !is_glob_pattern q) :=
  List.mem_filter.mpr ⟨hmem, by rw [hglob]; rfl⟩

/-- The helper `is_excluded` returns `true` as soon as one pattern hits the raw
path, the relative path, or a directory ancestor of the relative
path. -/
theorem is_excluded_of_hit (cwd root : String) (efs : List String) (pat p : String)
    (hmem : pat ∈ efs)
    (hhit : p = pat ∨ relpath cwd p root = pat
      ∨ strStartsWith (relpath cwd p root) (pat ++ "/") = true) :
    is_excluded cwd root efs p = true := by
  unfold is_excluded
  by_cases hc : efs.contains p = true
  · rw [if_pos hc]
  · rw [if_neg hc]
    show (efs.any (fun pattern => relpath cwd p root == pattern)
        || efs.any (fun pattern => strStartsWith (relpath cwd p root) (pattern ++ "/"))) = true
    rcases hhit with h | h | h
    · refine absurd (List.elem_eq_true_of_mem ?_) hc
      rw [← h] at hmem
      exact hmem
    · rw [Bool.or_eq_true]
      refine Or.inl (List.any_eq_true.mpr ⟨pat, hmem, ?_⟩)
      rw [h]
      exact beq_self_eq_true pat
    · rw [Bool.or_eq_true]
      exact Or.inr (List.any_eq_true.mpr ⟨pat, hmem, h⟩)

/-- The helper `is_included` returns `true` as soon as one pattern hits the raw
path, a directory ancestor of the relative path, or the basename. -/
theorem is_included_of_hit (cwd root : String) (ifs : List String) (pat p : String)
    (hmem : pat ∈ ifs)
    (hhit : p = pat ∨ strStartsWith (relpath cwd p root) (pat ++ "/") = true
      ∨ basename p = pat) :
    is_included cwd root ifs p = true := by
  unfold is_included
  by_cases hc : ifs.contains p = true
  · rw [if_pos hc]
  · rw [if_neg hc]
    show (ifs.any (fun pattern => strStartsWith (relpath cwd p root) (pattern ++ "/"))
        || ifs.any (fun pattern => basename p == pattern)) = true
    rcases hhit with h | h | h
    · refine absurd (List.elem_eq_true_of_mem ?_) hc
      rw [← h] at hmem
      exact hmem
    · rw [Bool.or_eq_true]
      exact Or.inl (List.any_eq_true.mpr ⟨pat, hmem, h⟩)
    · rw [Bool.or_eq_true]
      refine Or.inr (List.any_eq_true.mpr ⟨pat, hmem, ?_⟩)
      rw [h]
      exact beq_self_eq_true pat

/-- Membership in the output of `apply_filters` is membership in the
input plus a `true` verdict of the per-path decision. -/
theorem mem_apply_filters_iff (cwd root : String) (paths inc exc : List String) (p : String) :
    p ∈ apply_filters cwd paths root inc exc
      ↔ p ∈ paths ∧ keep_path cwd root inc exc p = true :=
  List.mem_filter

/-! ### C1, C2, C3, C6, C7, C8, C10 -/

/-- C1: if some exact (non-glob) exclude pattern equals the candidate's
raw string, or equals its root-relative form, or is a directory
ancestor of the relative form, then the candidate is absent from the
output of `apply_filters`, whatever the include patterns are: exact
exclusion is evaluated first and nothing can re-include such a path. -/
theorem c1_exact_exclusion_absolute (cwd root : String) (paths inc exc : List String)
    (pat p : String) (hmem : pat ∈ exc) (hglob : is_glob_pattern pat = false)
    (hhit : p = pat ∨ relpath cwd p root = pat
      ∨ strStartsWith (relpath cwd p root) (pat ++ "/") = true) :
    p ∉ apply_filters cwd paths root inc exc := by
  intro hin
  have hk := (List.mem_filter.mp hin).2
  have hexc : is_excluded cwd root (exc.filter (fun q => !is_glob_pattern q)) p = true :=
    is_excluded_of_hit cwd root _ pat p (mem_exact_filter hmem hglob) hhit
  simp [keep_path, hexc] at hk

/-- Witness for C1: the path `/r/a` whose relative form equals the exact
exclude pattern `a` is dropped even though both an exact and a glob
include pattern match it. -/
theorem c1_witness :
    "a" ∈ ["a"] ∧ is_glob_pattern "a" = false
      ∧ "/r/a" ∉ apply_filters "/" ["/r/a"] "/r" ["a", "*"] ["a"] :=
  ⟨by decide, by decide,
    c1_exact_exclusion_absolute "/" "/r" ["/r/a"] ["a", "*"] ["a"] "a" "/r/a"
      (by decide) (by decide) (Or.inr (Or.inl (by decide)))⟩

/-- C2: a candidate not hit by exact exclusion is selected as soon as
one exact (non-glob) include pattern equals its raw string, or is a
directory ancestor of its relative form, or equals its basename — the
glob patterns (both include and exclude) are never consulted. -/
theorem c2_exact_inclusion_overrides_globs (cwd root : String) (paths inc exc : List String)
    (pat p : String) (hmem : pat ∈ inc) (hglob : is_glob_pattern pat = false)
    (hp : p ∈ paths)
    (hnotexc : is_excluded cwd root (exc.filter (fun q => !is_glob_pattern q)) p = false)
    (hhit : p = pat ∨ strStartsWith (relpath cwd p root) (pat ++ "/") = true
      ∨ basename p = pat) :
    p ∈ apply_filters cwd paths root inc exc := by
  apply List.mem_filter.mpr
  refine ⟨hp, ?_⟩
  have hinc : is_included cwd root (inc.filter (fun q => !is_glob_pattern q)) p = true :=
    is_included_of_hit cwd root _ pat p (mem_exact_filter hmem hglob) hhit
  simp [keep_path, hnotexc, hinc]

/-- Witness for C2 (the spec scenario): `keep.txt` is selected by the
exact include pattern `keep.txt` although the exclude glob `*.txt`
matches it. -/
theorem c2_witness :
    is_excluded "/" "/r" (["*.txt"].filter (fun q => !is_glob_pattern q)) "/r/keep.txt" = false
      ∧ "/r/keep.txt" ∈ apply_filters "/" ["/r/keep.txt", "/r/drop.txt"] "/r"
          ["keep.txt"] ["*.txt"] :=
  ⟨by decide,
    c2_exact_inclusion_overrides_globs "/" "/r" ["/r/keep.txt", "/r/drop.txt"]
      ["keep.txt"] ["*.txt"] "keep.txt" "/r/keep.txt"
      (by decide) (by decide) (by decide) (by decide)
      (Or.inr (Or.inr (by decide)))⟩

/-- C3: for a candidate on which neither exact rule fires, membership in
the output is decided by the glob stage: with a non-empty include-glob
list, selected iff the relative form matches some include glob and no
exclude glob; with an empty include-glob list, selected iff it matches
no exclude glob. -/
theorem c3_glob_stage_characterization (cwd root : String) (paths inc exc : List String)
    (p : String) (hp : p ∈ paths)
    (hnotexc : is_excluded cwd root (exc.filter (fun q => !is_glob_pattern q)) p = false)
    (hnotinc : is_included cwd root (inc.filter (fun q => !is_glob_pattern q)) p = false) :
    (inc.filter (fun q => is_glob_pattern q) ≠ [] →
      (p ∈ apply_filters cwd paths root inc exc
        ↔ matches_glob cwd root (inc.filter (fun q => is_glob_pattern q)) p = true
            ∧ matches_glob cwd root (exc.filter (fun q => is_glob_pattern q)) p = false))
    ∧ (inc.filter (fun q => is_glob_pattern q) = [] →
      (p ∈ apply_filters cwd paths root inc exc
        ↔ matches_glob cwd root (exc.filter (fun q => is_glob_pattern q)) p = false)) := by
  have hmem := mem_apply_filters_iff cwd root paths inc exc p
  constructor
  · intro hne
    rw [hmem]
    have hie : (inc.filter (fun q => is_glob_pattern q)).isEmpty = false := by
      cases h : inc.filter (fun q => is_glob_pattern q) with
      | nil => exact absurd h hne
      | cons a l => rfl
    simp [keep_path, hnotexc, hnotinc, hie, hp, Bool.and_eq_true, Bool.not_eq_true']
  · intro he
    rw [hmem]
    simp [keep_path, hnotexc, hnotinc, he, hp, Bool.not_eq_true']

/-- Witness for C3: `/r/a.md` fails the only include glob `*.txt`, so
with both exact stages silent it is rejected. -/
theorem c3_witness :
    is_excluded "/" "/r" ([].filter (fun q => !is_glob_pattern q)) "/r/a.md" = false
      ∧ is_included "/" "/r" (["*.txt"].filter (fun q => !is_glob_pattern q)) "/r/a.md" = false
      ∧ (["*.txt"].filter (fun q => is_glob_pattern q) ≠ [] →
          ("/r/a.md" ∈ apply_filters "/" ["/r/a.md"] "/r" ["*.txt"] []
            ↔ matches_glob "/" "/r" (["*.txt"].filter (fun q => is_glob_pattern q)) "/r/a.md"
                  = true
                ∧ matches_glob "/" "/r" ([].filter (fun q => is_glob_pattern q)) "/r/a.md"
                  = false)) :=
  ⟨by decide, by decide,
    (c3_glob_stage_characterization "/" "/r" ["/r/a.md"] ["*.txt"] [] "/r/a.md"
      (by decide) (by decide) (by decide)).1⟩

/-- C6: with no patterns the selection engine is the identity, and for
every pattern pair its output is an order-preserving subsequence of its
input. -/
theorem c6_identity_and_sublist (cwd root : String) (paths inc exc : List String) :
    apply_filters cwd paths root [] [] = paths
      ∧ (apply_filters cwd paths root inc exc).Sublist paths := by
  constructor
  · apply List.filter_eq_self.mpr
    intro a _
    rfl
  · exact List.filter_sublist paths

/-- C7: filtering a filtered list again with the same working directory,
root and patterns changes nothing. -/
theorem c7_idempotent (cwd root : String) (paths inc exc : List String) :
    apply_filters cwd (apply_filters cwd paths root inc exc) root inc exc
      = apply_filters cwd paths root inc exc := by
  unfold apply_filters
  rw [List.filter_filter]
  apply List.filter_congr
  intro a _
  exact Bool.and_self _

/-- A sufficiently fuelled matcher sends the single token `*` to `true`
on every input. -/
theorem star_matches_aux : ∀ (cs : List Char) (f : Nat), cs.length + 2 ≤ f →
    globMatchF f [GlobTok.star] cs = true := by
  intro cs
  induction cs with
  | nil =>
    intro f hf
    obtain ⟨k, rfl⟩ := Nat.exists_eq_add_of_le hf
    show globMatchF (2 + k) [GlobTok.star] [] = true
    have h2 : 2 + k = (1 + k) + 1 := by omega
    rw [h2]
    show globMatchF (1 + k) [] [] = true
    have h1 : 1 + k = k + 1 := by omega
    rw [h1]
    rfl
  | cons c cs ih =>
    intro f hf
    obtain ⟨f', rfl⟩ : ∃ f', f = f' + 1 := ⟨f - 1, by omega⟩
    show (globMatchF f' [] (c :: cs) || globMatchF f' [GlobTok.star] cs) = true
    rw [ih f' (by simp at hf; omega)]
    exact Bool.or_true _

/-- C8: `*` matches any run of characters including the path separator,
so the include glob `*.txt` selects the nested candidate `dir/c.txt`
along with `a.txt`. -/
theorem c8_star_crosses_separators :
    (∀ s : String, fnmatch s "*" = true)
      ∧ fnmatch "dir/c.txt" "*.txt" = true
      ∧ apply_filters "/" ["/r/a.txt", "/r/b.md", "/r/dir/c.txt"] "/r" ["*.txt"] []
          = ["/r/a.txt", "/r/dir/c.txt"] := by
  refine ⟨?_, by decide, by decide⟩
  intro s
  show globMatchF ((parseGlob "*").length + s.data.length + 1) (parseGlob "*") s.data = true
  have hp : parseGlob "*" = [GlobTok.star] := by rfl
  rw [hp]
  exact star_matches_aux s.data _ (by simp only [List.length_singleton]; omega)

/-- C10: an exact exclude pattern is never compared with the basename —
a path whose raw string and relative form both differ from the pattern,
and whose relative form does not lie under it, survives the exclusion
stage even when its basename equals the pattern; by contrast the same
string as an exact include pattern selects the file anywhere in the
tree (witnessed by `sub/secret.txt` versus patterns `secret.txt`). -/
theorem c10_exclude_ignores_basename (cwd root p pat : String)
    (h1 : p ≠ pat) (h2 : relpath cwd p root ≠ pat)
    (h3 : strStartsWith (relpath cwd p root) (pat ++ "/") = false) :
    is_excluded cwd root [pat] p = false
      ∧ apply_filters "/" ["/r/sub/secret.txt"] "/r" [] ["secret.txt"]
          = ["/r/sub/secret.txt"]
      ∧ apply_filters "/" ["/r/sub/secret.txt"] "/r" ["secret.txt"] ["*.txt"]
          = ["/r/sub/secret.txt"] := by
  refine ⟨?_, by decide, by decide⟩
  have hb2 : (relpath cwd p root == pat) = false := beq_eq_false_iff_ne.mpr h2
  unfold is_excluded
  rw [if_neg]
  · show (List.any [pat] (fun pattern => relpath cwd p root == pattern)
        || List.any [pat] (fun pattern => strStartsWith (relpath cwd p root) (pattern ++ "/")))
          = false
    simp only [List.any_cons, List.any_nil, Bool.or_false]
    rw [hb2, h3]
    rfl
  · intro hcc
    exact h1 (List.mem_singleton.mp (List.mem_of_elem_eq_true hcc))

/-- Witness for C10: instantiated at `sub/secret.txt` against the
pattern `secret.txt`. -/
theorem c10_witness :
    is_excluded "/" "/r" ["secret.txt"] "/r/sub/secret.txt" = false
      ∧ apply_filters "/" ["/r/sub/secret.txt"] "/r" [] ["secret.txt"]
          = ["/r/sub/secret.txt"]
      ∧ apply_filters "/" ["/r/sub/secret.txt"] "/r" ["secret.txt"] ["*.txt"]
          = ["/r/sub/secret.txt"] :=
  c10_exclude_ignores_basename "/" "/r" "/r/sub/secret.txt" "secret.txt"
    (by decide) (by decide) (by decide)

/-- The enumerate-style directory loop agrees with the
`dropLast`/`getLast?` description. -/
theorem renderDirsAux_eq_spec (render : PTree → String → List String) (pfx : String)
    (fe : Bool) : ∀ l, renderDirsAux render pfx fe l = specDirLines render pfx fe l := by
  intro l
  induction l with
  | nil => rfl
  | cons hd tl ih =>
    cases tl with
    | nil =>
      obtain ⟨name, sub⟩ := hd
      simp [renderDirsAux, specDirLines, specDirBlock]
    | cons hd2 tl2 =>
      obtain ⟨name, sub⟩ := hd
      simp only [renderDirsAux, specDirLines, specDirBlock, List.isEmpty_cons,
        Bool.false_and, List.dropLast_cons₂, List.map_cons, List.flatten,
        List.getLast?_cons_cons, if_false] at ih ⊢
      rw [ih]
      simp [List.append_assoc]

/-- The enumerate-style file loop agrees with the
`dropLast`/`getLast?` description. -/
theorem renderFilesAux_eq_spec (pfx : String) :
    ∀ fs, renderFilesAux pfx fs = specFileLines pfx fs := by
  intro fs
  induction fs with
  | nil => rfl
  | cons hd tl ih =>
    cases tl with
    | nil => simp [renderFilesAux, specFileLines]
    | cons hd2 tl2 =>
      simp only [renderFilesAux, specFileLines, List.isEmpty_cons,
        List.dropLast_cons₂, List.map_cons, List.getLast?_cons_cons, if_false] at ih ⊢
      rw [ih]
      simp

/-- C9: within each rendered node the children are emitted in three
buckets — empty directories first (each with the branch connector,
never the terminal one), directories-with-entries next (the last one
terminal only if the files bucket is empty), files last (exactly the
final file terminal) — each bucket sorted lexicographically by name. -/
theorem c9_bucket_order_and_connectors (isDir : String → Bool) (repo : String) (fuel : Nat)
    (cs : List (String × PTree)) (pfx : String) :
    renderTreeF isDir repo (fuel + 1) (PTree.node cs) pfx =
      specEmptyDirLines pfx (emptyDirsOf isDir repo cs)
        ++ specDirLines (fun sub p => renderTreeF isDir repo fuel sub p) pfx
            (filesOf isDir repo cs).isEmpty (dirsWithFilesOf cs)
        ++ specFileLines pfx (filesOf isDir repo cs) := by
  show specEmptyDirLines pfx (emptyDirsOf isDir repo cs)
      ++ renderDirsAux (fun sub p => renderTreeF isDir repo fuel sub p) pfx
          (filesOf isDir repo cs).isEmpty (dirsWithFilesOf cs)
      ++ renderFilesAux pfx (filesOf isDir repo cs) = _
  rw [renderDirsAux_eq_spec, renderFilesAux_eq_spec]

/-! ### C4: the classifier receives the bare name, not the accumulated path -/

/-- C4 counterexample: with the single selected path `/r/sub/x` and a
directory predicate holding of `/r/x` only, the code classifies the
nested child `x` as an empty directory (branch connector `├── `)
because it joins the root with the bare name `x`, although the root
joined with the accumulated path `sub/x` is not a directory — the
spec-side renderer that uses the accumulated path classifies `x` as a
file (terminal connector `└── `). -/
theorem c4_counterexample :
    capture_tree_output (fun s => s == "/r/x") "/" "/r" ["/r/sub/x"]
        = ".\n└── sub\n    ├── x"
      ∧ capture_tree_output_accum (fun s => s == "/r/x") "/" "/r" ["/r/sub/x"]
        = ".\n└── sub\n    └── x"
      ∧ capture_tree_output (fun s => s == "/r/x") "/" "/r" ["/r/sub/x"]
        ≠ capture_tree_output_accum (fun s => s == "/r/x") "/" "/r" ["/r/sub/x"] :=
  ⟨by decide, by decide, by decide⟩

/-- C4 amended: in the tree builder, for every node at every depth, a
child with no sub-entries is classified as an empty directory (rather
than a file) iff the `isDirectory` predicate holds of the root joined
with the child's bare name — the accumulated path from the root down to
the child is never consulted.  The first conjunct quantifies over an
arbitrary children list, fuel and prefix, so it covers every node the
renderer ever reaches (the recursive calls on its right-hand side are
again `renderTreeF`, to which it applies in turn): the node's lines are
the empty-directory bucket of exactly the leaf children accepted by
`isDir (pjoin repo pr.1)`, then the directories with entries, then the
files bucket of exactly the leaf children rejected by it.  The second
conjunct instantiates this on the generic two-level chain `a/b`: the
connector of the nested leaf `b` depends on `isDir (pjoin repo b)`
alone, whatever its parent is. -/
theorem c4_amended_bare_name_classification (isDir : String → Bool) (repo : String)
    (fuel : Nat) (pfx : String) :
    (∀ cs : List (String × PTree),
      renderTreeF isDir repo (fuel + 1) (PTree.node cs) pfx =
        specEmptyDirLines pfx
          (List.insertionSort (fun a b : String => a ≤ b)
            ((cs.filter (fun pr => pr.2.children.isEmpty && isDir (pjoin repo pr.1))).map
              Prod.fst))
          ++ specDirLines (fun sub p => renderTreeF isDir repo fuel sub p) pfx
              (List.insertionSort (fun a b : String => a ≤ b)
                ((cs.filter
                    (fun pr => pr.2.children.isEmpty && !isDir (pjoin repo pr.1))).map
                  Prod.fst)).isEmpty
              (dirsWithFilesOf cs)
          ++ specFileLines pfx
              (List.insertionSort (fun a b : String => a ≤ b)
                ((cs.filter
                    (fun pr => pr.2.children.isEmpty && !isDir (pjoin repo pr.1))).map
                  Prod.fst)))
    ∧ (∀ a b : String,
      renderTreeF isDir repo (fuel + 2)
          (PTree.node [(a, PTree.node [(b, PTree.node [])])]) pfx
        = [pfx ++ "└── " ++ a,
           pfx ++ "    " ++ (if isDir (pjoin repo b) then "├── " else "└── ") ++ b]) := by
  constructor
  · intro cs
    show specEmptyDirLines pfx (emptyDirsOf isDir repo cs)
        ++ renderDirsAux (fun sub p => renderTreeF isDir repo fuel sub p) pfx
          (filesOf isDir repo cs).isEmpty (dirsWithFilesOf cs)
        ++ renderFilesAux pfx (filesOf isDir repo cs)
      = specEmptyDirLines pfx (emptyDirsOf isDir repo cs)
        ++ specDirLines (fun sub p => renderTreeF isDir repo fuel sub p) pfx
          (filesOf isDir repo cs).isEmpty (dirsWithFilesOf cs)
        ++ specFileLines pfx (filesOf isDir repo cs)
    rw [renderDirsAux_eq_spec, renderFilesAux_eq_spec]
  · intro a b
    by_cases h : isDir (pjoin repo b) = true
    · simp [renderTreeF, emptyDirsOf, filesOf, dirsWithFilesOf, renderDirsAux,
        renderFilesAux, List.insertionSort, List.orderedInsert, PTree.children, h]
    · simp only [Bool.not_eq_true] at h
      simp [renderTreeF, emptyDirsOf, filesOf, dirsWithFilesOf, renderDirsAux,
        renderFilesAux, List.insertionSort, List.orderedInsert, PTree.children, h]

/-! ### Lemmas on `lookupC`, `updateChild`, `WFT` and `PEquiv` -/

/-- A successful lookup exhibits a member of the association list. -/
theorem mem_of_lookupC : ∀ {cs : List (String × PTree)} {k : String} {v : PTree},
    lookupC cs k = some v → (k, v) ∈ cs := by
  intro cs
  induction cs with
  | nil => intro k v h; simp [lookupC] at h
  | cons hd tl ih =>
    intro k v h
    obtain ⟨k0, v0⟩ := hd
    simp only [lookupC] at h
    by_cases h0 : k0 = k
    · rw [if_pos h0] at h
      subst h0
      cases h
      exact List.mem_cons_self _ _
    · rw [if_neg h0] at h
      exact List.mem_cons_of_mem _ (ih h)

/-- With unique keys, membership determines the lookup. -/
theorem lookupC_eq_of_mem : ∀ {cs : List (String × PTree)} {k : String} {v : PTree},
    (keysOf cs).Nodup → (k, v) ∈ cs → lookupC cs k = some v := by
  intro cs
  induction cs with
  | nil => intro k v _ h; simp at h
  | cons hd tl ih =>
    intro k v hnd h
    obtain ⟨k0, v0⟩ := hd
    simp only [keysOf, List.map_cons, List.nodup_cons] at hnd
    rcases List.mem_cons.mp h with heq | hmem
    · cases heq
      simp [lookupC]
    · have hk : k0 ≠ k := by
        intro he
        subst he
        exact hnd.1 (List.mem_map_of_mem Prod.fst hmem)
      simp only [lookupC, if_neg hk]
      exact ih hnd.2 hmem

/-- A lookup fails exactly when the key is absent. -/
theorem lookupC_none_iff : ∀ {cs : List (String × PTree)} {k : String},
    lookupC cs k = none ↔ k ∉ keysOf cs := by
  intro cs
  induction cs with
  | nil => intro k; simp [lookupC, keysOf]
  | cons hd tl ih =>
    intro k
    obtain ⟨k0, v0⟩ := hd
    by_cases h0 : k0 = k
    · subst h0
      simp [lookupC, keysOf]
    · simp only [lookupC, if_neg h0, keysOf, List.map_cons, List.mem_cons, not_or]
      rw [ih]
      simp only [keysOf]
      constructor
      · intro hh
        exact ⟨fun he => h0 he.symm, hh⟩
      · intro hh
        exact hh.2

/-- How `updateChild` transforms lookups: the updated key now binds `f`
of the previous value (or of a fresh empty node), other keys are
untouched. -/
theorem lookupC_updateChild : ∀ (cs : List (String × PTree)) (part : String)
    (f : PTree → PTree) (k : String),
    lookupC (updateChild cs part f) k =
      if part = k then some (f ((lookupC cs part).getD (PTree.node [])))
      else lookupC cs k := by
  intro cs part f k
  induction cs with
  | nil =>
    show lookupC [(part, f (PTree.node []))] k = _
    by_cases h : part = k
    · simp [lookupC, h]
    · simp [lookupC, h]
  | cons hd tl ih =>
    obtain ⟨k0, v0⟩ := hd
    show lookupC (if k0 = part then (k0, f v0) :: tl
        else (k0, v0) :: updateChild tl part f) k = _
    by_cases h0 : k0 = part
    · subst h0
      rw [if_pos rfl]
      by_cases hk : k0 = k
      · subst hk
        simp [lookupC]
      · simp only [lookupC, if_neg hk]
    · rw [if_neg h0]
      by_cases hk : k0 = k
      · subst hk
        rw [if_neg (fun h => h0 h.symm)]
        simp [lookupC]
      · simp only [lookupC, if_neg hk, if_neg h0]
        exact ih

/-- Updating either keeps the key list or appends the new key. -/
theorem keysOf_updateChild : ∀ (cs : List (String × PTree)) (part : String)
    (f : PTree → PTree),
    keysOf (updateChild cs part f)
      = if part ∈ keysOf cs then keysOf cs else keysOf cs ++ [part] := by
  intro cs part f
  induction cs with
  | nil => simp [updateChild, keysOf]
  | cons hd tl ih =>
    obtain ⟨k0, v0⟩ := hd
    show keysOf (if k0 = part then (k0, f v0) :: tl
        else (k0, v0) :: updateChild tl part f) = _
    by_cases h0 : k0 = part
    · subst h0
      rw [if_pos rfl]
      simp [keysOf]
    · rw [if_neg h0]
      simp only [keysOf, List.map_cons] at ih ⊢
      rw [ih]
      by_cases hm : part ∈ List.map Prod.fst tl
      · simp [hm, Ne.symm h0]
      · simp [hm, Ne.symm h0]

/-- Updating preserves uniqueness of keys. -/
theorem nodup_keysOf_updateChild {cs : List (String × PTree)} {part : String}
    {f : PTree → PTree} (h : (keysOf cs).Nodup) :
    (keysOf (updateChild cs part f)).Nodup := by
  rw [keysOf_updateChild]
  by_cases hm : part ∈ keysOf cs
  · rwa [if_pos hm]
  · rw [if_neg hm]
    simp [List.nodup_append, h, hm]

/-- Every member of `updateChild cs part f` is an old member or the
updated binding of `part`. -/
theorem mem_updateChild : ∀ {cs : List (String × PTree)} {part : String}
    {f : PTree → PTree} {pr : String × PTree}, pr ∈ updateChild cs part f →
    pr ∈ cs ∨ ∃ v, pr = (part, f v) ∧ (v = PTree.node [] ∨ (part, v) ∈ cs) := by
  intro cs
  induction cs with
  | nil =>
    intro part f pr h
    simp only [updateChild, List.mem_singleton] at h
    exact Or.inr ⟨PTree.node [], h, Or.inl rfl⟩
  | cons hd tl ih =>
    intro part f pr h
    obtain ⟨k0, v0⟩ := hd
    simp only [updateChild] at h
    by_cases h0 : k0 = part
    · rw [if_pos h0] at h
      subst h0
      rcases List.mem_cons.mp h with heq | hmem
      · exact Or.inr ⟨v0, heq, Or.inr (List.mem_cons_self _ _)⟩
      · exact Or.inl (List.mem_cons_of_mem _ hmem)
    · rw [if_neg h0] at h
      rcases List.mem_cons.mp h with heq | hmem
      · exact Or.inl (heq ▸ List.mem_cons_self _ _)
      · rcases ih hmem with hin | ⟨v, heq, hv⟩
        · exact Or.inl (List.mem_cons_of_mem _ hin)
        · exact Or.inr ⟨v, heq, hv.imp id (List.mem_cons_of_mem _)⟩

/-- The empty node is well formed. -/
theorem WFT_nil : WFT (PTree.node []) :=
  WFT.node [] (by simp [keysOf]) (by simp)

/-- Insertion preserves well-formedness, as dict insertion does. -/
theorem WFT_insertParts : ∀ (parts : List String) (t : PTree), WFT t →
    WFT (insertParts parts t) := by
  intro parts
  induction parts with
  | nil => intro t h; exact h
  | cons part rest ih =>
    intro t h
    cases t with
    | node cs =>
      cases h with
      | node _ hnd hch =>
        show WFT (PTree.node (updateChild cs part (fun sub => insertParts rest sub)))
        refine WFT.node _ (nodup_keysOf_updateChild hnd) ?_
        intro pr hpr
        rcases mem_updateChild hpr with hin | ⟨v, heq, hv⟩
        · exact hch pr hin
        · rw [heq]
          rcases hv with rfl | hmem
          · exact ih _ WFT_nil
          · exact ih _ (hch (part, v) hmem)

/-- Auxiliary form of reflexivity of `PEquiv` (by strong induction on the size of the
tree). -/
theorem pequiv_refl_aux : ∀ (n : Nat) (t : PTree), sizeOf t ≤ n → PEquiv t t := by
  intro n
  induction n with
  | zero =>
    intro t h
    cases t with
    | node cs =>
      simp only [PTree.node.sizeOf_spec] at h
      omega
  | succ n ih =>
    intro t h
    cases t with
    | node cs =>
      refine PEquiv.node cs cs ?_
      intro k
      cases hl : lookupC cs k with
      | none => exact Option.Rel.none
      | some v =>
        refine Option.Rel.some (ih v ?_)
        have hm := mem_of_lookupC hl
        have h1 := List.sizeOf_lt_of_mem hm
        have h2 : sizeOf (PTree.node cs) = 1 + sizeOf cs := by simp
        have h3 : sizeOf (k, v) = 1 + sizeOf k + sizeOf v := by simp
        omega

/-- Reflexivity of `PEquiv`. -/
theorem pequiv_refl (t : PTree) : PEquiv t t :=
  pequiv_refl_aux (sizeOf t) t le_rfl

/-- Auxiliary form of transitivity of `PEquiv` (strong induction on size). -/
theorem pequiv_trans_aux : ∀ (n : Nat) (t₁ t₂ t₃ : PTree), sizeOf t₁ ≤ n →
    PEquiv t₁ t₂ → PEquiv t₂ t₃ → PEquiv t₁ t₃ := by
  intro n
  induction n with
  | zero =>
    intro t₁ t₂ t₃ h _ _
    cases t₁ with
    | node cs =>
      simp only [PTree.node.sizeOf_spec] at h
      omega
  | succ n ih =>
    intro t₁ t₂ t₃ h h12 h23
    cases h12 with
    | node cs₁ cs₂ hr12 =>
      cases h23 with
      | node _ cs₃ hr23 =>
        refine PEquiv.node cs₁ cs₃ ?_
        intro k
        have h12k := hr12 k
        have h23k := hr23 k
        generalize hl1 : lookupC cs₁ k = o₁ at h12k ⊢
        generalize hl2 : lookupC cs₂ k = o₂ at h12k h23k
        generalize hl3 : lookupC cs₃ k = o₃ at h23k ⊢
        cases o₁ with
        | none =>
          cases h12k
          cases h23k
          exact Option.Rel.none
        | some a =>
          cases o₂ with
          | none => cases h12k
          | some b =>
            cases o₃ with
            | none => cases h23k
            | some c =>
              cases h12k with
              | some hv12 =>
                cases h23k with
                | some hv23 =>
                  refine Option.Rel.some (ih a b c ?_ hv12 hv23)
                  have hm := mem_of_lookupC hl1
                  have h1 := List.sizeOf_lt_of_mem hm
                  have h2 : sizeOf (PTree.node cs₁) = 1 + sizeOf cs₁ := by simp
                  have h3 : sizeOf (k, a) = 1 + sizeOf k + sizeOf a := by simp
                  omega

/-- Transitivity of `PEquiv`. -/
theorem pequiv_trans {t₁ t₂ t₃ : PTree} (h12 : PEquiv t₁ t₂) (h23 : PEquiv t₂ t₃) :
    PEquiv t₁ t₃ :=
  pequiv_trans_aux (sizeOf t₁) t₁ t₂ t₃ le_rfl h12 h23

/-- Reflexivity of `Option.Rel PEquiv`. -/
theorem optRel_pequiv_refl : ∀ o : Option PTree, Option.Rel PEquiv o o
  | some v => Option.Rel.some (pequiv_refl v)
  | none => Option.Rel.none

/-- Equivalent nodes are empty together. -/
theorem pequiv_children_nil_iff {cs₁ cs₂ : List (String × PTree)}
    (h : PEquiv (PTree.node cs₁) (PTree.node cs₂)) : cs₁ = [] ↔ cs₂ = [] := by
  cases h with
  | node _ _ hrel =>
    constructor
    · intro h1
      subst h1
      cases cs₂ with
      | nil => rfl
      | cons hd tl =>
        obtain ⟨k, v⟩ := hd
        have hk := hrel k
        rw [show lookupC [] k = none from rfl,
          show lookupC ((k, v) :: tl) k = some v by simp [lookupC]] at hk
        cases hk
    · intro h2
      subst h2
      cases cs₁ with
      | nil => rfl
      | cons hd tl =>
        obtain ⟨k, v⟩ := hd
        have hk := hrel k
        rw [show lookupC [] k = none from rfl,
          show lookupC ((k, v) :: tl) k = some v by simp [lookupC]] at hk
        cases hk

/-- Insertion of the same path into equivalent trees yields equivalent
trees. -/
theorem pequiv_insertParts : ∀ (parts : List String) {t₁ t₂ : PTree},
    PEquiv t₁ t₂ → PEquiv (insertParts parts t₁) (insertParts parts t₂) := by
  intro parts
  induction parts with
  | nil => intro t₁ t₂ h; exact h
  | cons part rest ih =>
    intro t₁ t₂ h
    cases h with
    | node cs₁ cs₂ hrel =>
      show PEquiv (PTree.node (updateChild cs₁ part (fun sub => insertParts rest sub)))
        (PTree.node (updateChild cs₂ part (fun sub => insertParts rest sub)))
      refine PEquiv.node _ _ ?_
      intro k
      rw [lookupC_updateChild, lookupC_updateChild]
      by_cases hk : part = k
      · rw [if_pos hk, if_pos hk]
        refine Option.Rel.some ?_
        have hrp := hrel part
        generalize hl1 : lookupC cs₁ part = o₁ at hrp ⊢
        generalize hl2 : lookupC cs₂ part = o₂ at hrp ⊢
        cases hrp with
        | none => exact ih (pequiv_refl _)
        | some hv => exact ih hv
      · rw [if_neg hk, if_neg hk]
        exact hrel k

/-- Inserting two paths commutes up to `PEquiv`. -/
theorem pequiv_insert_comm : ∀ (p q : List String) (t : PTree),
    PEquiv (insertParts q (insertParts p t)) (insertParts p (insertParts q t)) := by
  intro p
  induction p with
  | nil => intro q t; exact pequiv_refl _
  | cons a p' ih =>
    intro q t
    cases q with
    | nil => exact pequiv_refl _
    | cons b q' =>
      cases t with
      | node cs =>
        show PEquiv
          (PTree.node (updateChild (updateChild cs a (fun sub => insertParts p' sub)) b
            (fun sub => insertParts q' sub)))
          (PTree.node (updateChild (updateChild cs b (fun sub => insertParts q' sub)) a
            (fun sub => insertParts p' sub)))
        refine PEquiv.node _ _ ?_
        intro k
        simp only [lookupC_updateChild]
        by_cases hak : a = k <;> by_cases hbk : b = k
        · have hab : a = b := hak.trans hbk.symm
          rw [if_pos hbk, if_pos hab, if_pos hak, if_pos hab.symm, hab]
          simp only [Option.getD_some]
          exact Option.Rel.some (ih q' _)
        · rw [if_neg hbk, if_pos hak, if_pos hak,
            if_neg (fun h : b = a => hbk (h.trans hak))]
          exact Option.Rel.some (pequiv_refl _)
        · rw [if_pos hbk, if_neg (fun h : a = b => hak (h.trans hbk)), if_neg hak,
            if_pos hbk]
          exact Option.Rel.some (pequiv_refl _)
        · rw [if_neg hbk, if_neg hak, if_neg hak, if_neg hbk]
          exact optRel_pequiv_refl _

/-- Folding insertions over the same path list preserves `PEquiv`. -/
theorem pequiv_foldl (cwd root : String) : ∀ (l : List String) {t₁ t₂ : PTree},
    PEquiv t₁ t₂ →
    PEquiv (l.foldl (fun t p => insertParts (strSplit (relpath cwd p root)) t) t₁)
      (l.foldl (fun t p => insertParts (strSplit (relpath cwd p root)) t) t₂) := by
  intro l
  induction l with
  | nil => intro t₁ t₂ h; exact h
  | cons x l ih => intro t₁ t₂ h; exact ih (pequiv_insertParts _ h)

/-- Folding insertions over permuted path lists yields equivalent
trees. -/
theorem pequiv_foldl_perm (cwd root : String) : ∀ {l₁ l₂ : List String}, l₁.Perm l₂ →
    ∀ t : PTree,
    PEquiv (l₁.foldl (fun t p => insertParts (strSplit (relpath cwd p root)) t) t)
      (l₂.foldl (fun t p => insertParts (strSplit (relpath cwd p root)) t) t) := by
  intro l₁ l₂ h
  induction h with
  | nil => intro t; exact pequiv_refl _
  | cons x _ ih => intro t; exact ih _
  | swap x y l => intro t; exact pequiv_foldl cwd root l (pequiv_insert_comm _ _ t)
  | trans _ _ ih₁ ih₂ => intro t; exact pequiv_trans (ih₁ t) (ih₂ t)

/-- Folding insertions preserves well-formedness. -/
theorem WFT_foldl (cwd root : String) : ∀ (l : List String) (t : PTree), WFT t →
    WFT (l.foldl (fun t p => insertParts (strSplit (relpath cwd p root)) t) t) := by
  intro l
  induction l with
  | nil => intro t h; exact h
  | cons x l ih => intro t h; exact ih _ (WFT_insertParts _ _ h)

/-- Filtering keeps keys unique. -/
theorem nodup_keysOf_filter {cs : List (String × PTree)} (h : (keysOf cs).Nodup)
    (pred : String × PTree → Bool) : (keysOf (cs.filter pred)).Nodup :=
  h.sublist ((List.filter_sublist cs).map Prod.fst)

/-- Lookup in a filtered association list with unique keys: the looked-up
binding survives exactly when the predicate accepts it. -/
theorem lookupC_filter (pred : String × PTree → Bool) :
    ∀ (cs : List (String × PTree)), (keysOf cs).Nodup → ∀ k,
    lookupC (cs.filter pred) k
      = (lookupC cs k).bind (fun v => if pred (k, v) then some v else none) := by
  intro cs
  induction cs with
  | nil => intro _ k; rfl
  | cons hd tl ih =>
    intro hnd k
    obtain ⟨k0, v0⟩ := hd
    simp only [keysOf, List.map_cons, List.nodup_cons] at hnd
    by_cases hp : pred (k0, v0) = true
    · rw [List.filter_cons_of_pos hp]
      by_cases hk : k0 = k
      · subst hk
        simp only [lookupC, if_pos rfl]
        simp [hp]
      · simp only [lookupC, if_neg hk]
        exact ih hnd.2 k
    · rw [List.filter_cons_of_neg (by simpa using hp)]
      by_cases hk : k0 = k
      · subst hk
        have hnone : lookupC tl k0 = none := lookupC_none_iff.mpr hnd.1
        rw [ih hnd.2 k0, hnone]
        simp only [lookupC, if_pos rfl, Option.bind_none, Option.bind_some]
        simp [hp]
      · simp only [lookupC, if_neg hk]
        exact ih hnd.2 k

/-- With unique keys, lookup is invariant under permutation. -/
theorem lookupC_of_perm {s₁ s₂ : List (String × PTree)} (h : s₁.Perm s₂)
    (hnd : (keysOf s₁).Nodup) (k : String) : lookupC s₁ k = lookupC s₂ k := by
  have hnd₂ : (keysOf s₂).Nodup := ((h.map Prod.fst).nodup_iff).mp hnd
  cases hl : lookupC s₁ k with
  | some v =>
    exact (lookupC_eq_of_mem hnd₂ (h.mem_iff.mp (mem_of_lookupC hl))).symm
  | none =>
    symm
    rw [lookupC_none_iff]
    rw [lookupC_none_iff] at hl
    intro hk
    exact hl ((h.map Prod.fst).mem_iff.mpr hk)

/-- Two association lists that are sorted by key, bind each key once
and have pointwise related lookups agree position by position: same
keys in the same order, with related values. -/
theorem forall₂_of_sorted_assoc {R : PTree → PTree → Prop} :
    ∀ (s₁ s₂ : List (String × PTree)),
    List.Sorted nameLe s₁ → List.Sorted nameLe s₂ →
    (keysOf s₁).Nodup → (keysOf s₂).Nodup →
    (∀ k, Option.Rel R (lookupC s₁ k) (lookupC s₂ k)) →
    List.Forall₂ (fun a b => a.1 = b.1 ∧ R a.2 b.2) s₁ s₂ := by
  intro s₁
  induction s₁ with
  | nil =>
    intro s₂ _ _ _ _ hrel
    cases s₂ with
    | nil => exact List.Forall₂.nil
    | cons hd tl =>
      obtain ⟨k, v⟩ := hd
      have hk := hrel k
      rw [show lookupC [] k = none from rfl,
        show lookupC ((k, v) :: tl) k = some v by simp [lookupC]] at hk
      cases hk
  | cons hd₁ t₁ ih =>
    intro s₂ hs₁ hs₂ hnd₁ hnd₂ hrel
    obtain ⟨k₁, v₁⟩ := hd₁
    cases s₂ with
    | nil =>
      have hk := hrel k₁
      rw [show lookupC ((k₁, v₁) :: t₁) k₁ = some v₁ by simp [lookupC],
        show lookupC [] k₁ = none from rfl] at hk
      cases hk
    | cons hd₂ t₂ =>
      obtain ⟨k₂, v₂⟩ := hd₂
      have h1 : lookupC ((k₁, v₁) :: t₁) k₁ = some v₁ := by simp [lookupC]
      have h2 : lookupC ((k₂, v₂) :: t₂) k₂ = some v₂ := by simp [lookupC]
      have hk12 : k₁ = k₂ := by
        have hmem₁ : k₁ ∈ keysOf ((k₂, v₂) :: t₂) := by
          have ha := hrel k₁
          rw [h1] at ha
          cases hb : lookupC ((k₂, v₂) :: t₂) k₁ with
          | none => rw [hb] at ha; cases ha
          | some w => exact List.mem_map_of_mem Prod.fst (mem_of_lookupC hb)
        have hmem₂ : k₂ ∈ keysOf ((k₁, v₁) :: t₁) := by
          have hb := hrel k₂
          rw [h2] at hb
          cases hc : lookupC ((k₁, v₁) :: t₁) k₂ with
          | none => rw [hc] at hb; cases hb
          | some w => exact List.mem_map_of_mem Prod.fst (mem_of_lookupC hc)
        have hle₂ : k₂ ≤ k₁ := by
          simp only [keysOf, List.map_cons, List.mem_cons] at hmem₁
          rcases hmem₁ with he | hm
          · exact le_of_eq he.symm
          · rcases List.mem_map.mp hm with ⟨pr, hpr, hfst⟩
            have hle := (List.sorted_cons.mp hs₂).1 pr hpr
            exact hfst ▸ hle
        have hle₁ : k₁ ≤ k₂ := by
          simp only [keysOf, List.map_cons, List.mem_cons] at hmem₂
          rcases hmem₂ with he | hm
          · exact le_of_eq he.symm
          · rcases List.mem_map.mp hm with ⟨pr, hpr, hfst⟩
            have hle := (List.sorted_cons.mp hs₁).1 pr hpr
            exact hfst ▸ hle
        exact le_antisymm hle₁ hle₂
      subst hk12
      have hv : R v₁ v₂ := by
        have ha := hrel k₁
        rw [h1, h2] at ha
        cases ha with
        | some hr => exact hr
      refine List.Forall₂.cons ⟨rfl, hv⟩ ?_
      simp only [keysOf, List.map_cons, List.nodup_cons] at hnd₁ hnd₂
      apply ih
      · exact (List.sorted_cons.mp hs₁).2
      · exact (List.sorted_cons.mp hs₂).2
      · exact hnd₁.2
      · exact hnd₂.2
      · intro k
        by_cases hk : k₁ = k
        · subst hk
          have hn₁ : lookupC t₁ k₁ = none := lookupC_none_iff.mpr hnd₁.1
          have hn₂ : lookupC t₂ k₁ = none := lookupC_none_iff.mpr hnd₂.1
          rw [hn₁, hn₂]
          exact Option.Rel.none
        · have ha := hrel k
          rw [show lookupC ((k₁, v₁) :: t₁) k = lookupC t₁ k by simp [lookupC, hk],
            show lookupC ((k₁, v₂) :: t₂) k = lookupC t₂ k by simp [lookupC, hk]] at ha
          exact ha

/-- Equivalent trees have empty children lists together, stated on the
`Bool` used by the renderer's partition. -/
theorem pequiv_children_isEmpty {v₁ v₂ : PTree} (h : PEquiv v₁ v₂) :
    v₁.children.isEmpty = v₂.children.isEmpty := by
  cases v₁ with
  | node l₁ =>
    cases v₂ with
    | node l₂ =>
      have hiff := pequiv_children_nil_iff h
      simp only [PTree.children]
      cases l₁ with
      | nil =>
        cases l₂ with
        | nil => rfl
        | cons hd tl => exact absurd (hiff.mp rfl) (by simp)
      | cons hd tl =>
        cases l₂ with
        | nil => exact absurd (hiff.mpr rfl) (by simp)
        | cons hd2 tl2 => rfl

/-- Key membership is lookup success. -/
theorem mem_keysOf_iff_lookupC {cs : List (String × PTree)} {a : String} :
    a ∈ keysOf cs ↔ lookupC cs a ≠ none := by
  constructor
  · intro h hn
    exact (lookupC_none_iff.mp hn) h
  · intro h
    by_contra hn
    exact h (lookupC_none_iff.mpr hn)

/-- The leaf buckets (empty directories, files) of equivalent children
lists coincide: sorting the names of the leaves accepted by a test `q`
of the name gives the same list on both sides. -/
theorem leaf_bucket_eq (q : String → Bool) {cs₁ cs₂ : List (String × PTree)}
    (hnd₁ : (keysOf cs₁).Nodup) (hnd₂ : (keysOf cs₂).Nodup)
    (hrel : ∀ k, Option.Rel PEquiv (lookupC cs₁ k) (lookupC cs₂ k)) :
    List.insertionSort (fun a b : String => a ≤ b)
        ((cs₁.filter (fun pr => pr.2.children.isEmpty && q pr.1)).map Prod.fst)
      = List.insertionSort (fun a b : String => a ≤ b)
        ((cs₂.filter (fun pr => pr.2.children.isEmpty && q pr.1)).map Prod.fst) := by
  have hnod₁ : ((cs₁.filter (fun pr => pr.2.children.isEmpty && q pr.1)).map Prod.fst).Nodup :=
    nodup_keysOf_filter hnd₁ _
  have hnod₂ : ((cs₂.filter (fun pr => pr.2.children.isEmpty && q pr.1)).map Prod.fst).Nodup :=
    nodup_keysOf_filter hnd₂ _
  refine List.eq_of_perm_of_sorted ?_
    (List.sorted_insertionSort (fun a b : String => a ≤ b) _)
    (List.sorted_insertionSort (fun a b : String => a ≤ b) _)
  refine ((List.perm_insertionSort _ _).trans ?_).trans
    (List.perm_insertionSort _ _).symm
  refine (List.perm_ext_iff_of_nodup hnod₁ hnod₂).mpr ?_
  intro a
  show a ∈ keysOf (cs₁.filter (fun pr => pr.2.children.isEmpty && q pr.1))
    ↔ a ∈ keysOf (cs₂.filter (fun pr => pr.2.children.isEmpty && q pr.1))
  rw [mem_keysOf_iff_lookupC, mem_keysOf_iff_lookupC,
    lookupC_filter _ _ hnd₁, lookupC_filter _ _ hnd₂]
  have ha := hrel a
  generalize lookupC cs₁ a = o₁ at ha ⊢
  generalize lookupC cs₂ a = o₂ at ha ⊢
  cases ha with
  | none => exact Iff.rfl
  | some hv =>
    rename_i v₁ v₂
    show ((if v₁.children.isEmpty && q a then some v₁ else none) ≠ none)
      ↔ ((if v₂.children.isEmpty && q a then some v₂ else none) ≠ none)
    rw [pequiv_children_isEmpty hv]
    by_cases hq : (v₂.children.isEmpty && q a) = true
    · simp [hq]
    · simp [hq]

/-- The directories-with-entries buckets of equivalent children lists
agree position by position, with equivalent subtrees. -/
theorem dirs_bucket_forall₂ {cs₁ cs₂ : List (String × PTree)}
    (hnd₁ : (keysOf cs₁).Nodup) (hnd₂ : (keysOf cs₂).Nodup)
    (hrel : ∀ k, Option.Rel PEquiv (lookupC cs₁ k) (lookupC cs₂ k)) :
    List.Forall₂ (fun a b => a.1 = b.1 ∧ PEquiv a.2 b.2)
      (dirsWithFilesOf cs₁) (dirsWithFilesOf cs₂) := by
  have hnod₁ : (keysOf (cs₁.filter (fun pr => !pr.2.children.isEmpty))).Nodup :=
    nodup_keysOf_filter hnd₁ _
  have hnod₂ : (keysOf (cs₂.filter (fun pr => !pr.2.children.isEmpty))).Nodup :=
    nodup_keysOf_filter hnd₂ _
  have hperm₁ : (dirsWithFilesOf cs₁).Perm (cs₁.filter (fun pr => !pr.2.children.isEmpty)) :=
    List.perm_insertionSort nameLe _
  have hperm₂ : (dirsWithFilesOf cs₂).Perm (cs₂.filter (fun pr => !pr.2.children.isEmpty)) :=
    List.perm_insertionSort nameLe _
  have hsnd₁ : (keysOf (dirsWithFilesOf cs₁)).Nodup :=
    ((hperm₁.map Prod.fst).nodup_iff).mpr hnod₁
  have hsnd₂ : (keysOf (dirsWithFilesOf cs₂)).Nodup :=
    ((hperm₂.map Prod.fst).nodup_iff).mpr hnod₂
  apply forall₂_of_sorted_assoc
  · exact List.sorted_insertionSort _ _
  · exact List.sorted_insertionSort _ _
  · exact hsnd₁
  · exact hsnd₂
  · intro k
    rw [lookupC_of_perm hperm₁ hsnd₁ k, lookupC_of_perm hperm₂ hsnd₂ k,
      lookupC_filter _ _ hnd₁, lookupC_filter _ _ hnd₂]
    have ha := hrel k
    generalize lookupC cs₁ k = o₁ at ha ⊢
    generalize lookupC cs₂ k = o₂ at ha ⊢
    cases ha with
    | none => exact Option.Rel.none
    | some hv =>
      rename_i v₁ v₂
      show Option.Rel PEquiv (if !v₁.children.isEmpty then some v₁ else none)
        (if !v₂.children.isEmpty then some v₂ else none)
      rw [pequiv_children_isEmpty hv]
      by_cases hq : (!v₂.children.isEmpty) = true
      · rw [if_pos hq, if_pos hq]
        exact Option.Rel.some hv
      · rw [if_neg hq, if_neg hq]
        exact Option.Rel.none

/-- Strengthen the positional agreement of the directory buckets with
the induction hypothesis on the fuel: related subtrees render
identically. -/
theorem forall₂_render_of_pequiv (isDir : String → Bool) (repo : String) (fuel : Nat)
    (ihr : ∀ (t₁ t₂ : PTree) (pfx : String), WFT t₁ → WFT t₂ → PEquiv t₁ t₂ →
      renderTreeF isDir repo fuel t₁ pfx = renderTreeF isDir repo fuel t₂ pfx) :
    ∀ {l₁ l₂ : List (String × PTree)},
    List.Forall₂ (fun a b => a.1 = b.1 ∧ PEquiv a.2 b.2) l₁ l₂ →
    (∀ pr ∈ l₁, WFT pr.2) → (∀ pr ∈ l₂, WFT pr.2) →
    List.Forall₂ (fun a b => a.1 = b.1 ∧ ∀ p : String,
      renderTreeF isDir repo fuel a.2 p = renderTreeF isDir repo fuel b.2 p) l₁ l₂ := by
  intro l₁ l₂ h
  induction h with
  | nil => intro _ _; exact List.Forall₂.nil
  | cons hab htl ihl =>
    intro hw₁ hw₂
    refine List.Forall₂.cons
      ⟨hab.1, fun p => ihr _ _ p (hw₁ _ (List.mem_cons_self _ _))
        (hw₂ _ (List.mem_cons_self _ _)) hab.2⟩ ?_
    exact ihl (fun pr hpr => hw₁ pr (List.mem_cons_of_mem _ hpr))
      (fun pr hpr => hw₂ pr (List.mem_cons_of_mem _ hpr))

/-- The directory loop produces equal lines on positionally related
lists whose subtrees render identically. -/
theorem renderDirsAux_congr (render₁ render₂ : PTree → String → List String)
    (pfx : String) (fe : Bool) :
    ∀ {l₁ l₂ : List (String × PTree)},
    List.Forall₂ (fun a b => a.1 = b.1 ∧ ∀ p, render₁ a.2 p = render₂ b.2 p) l₁ l₂ →
    renderDirsAux render₁ pfx fe l₁ = renderDirsAux render₂ pfx fe l₂ := by
  intro l₁ l₂ h
  induction h with
  | nil => rfl
  | cons hab htl ihl =>
    rename_i a b tl₁ tl₂
    obtain ⟨a1, a2⟩ := a
    obtain ⟨b1, b2⟩ := b
    have hie : tl₁.isEmpty = tl₂.isEmpty := by
      have hlen := htl.length_eq
      cases tl₁ with
      | nil =>
        cases tl₂ with
        | nil => rfl
        | cons hd tl => simp at hlen
      | cons hd tl =>
        cases tl₂ with
        | nil => simp at hlen
        | cons hd2 tl2 => rfl
    have hk : a1 = b1 := hab.1
    have hr : ∀ p, render₁ a2 p = render₂ b2 p := hab.2
    show (pfx ++ (if tl₁.isEmpty && fe then "└── " else "├── ") ++ a1)
        :: (render₁ a2 (pfx ++ (if tl₁.isEmpty && fe then "    " else "│   "))
            ++ renderDirsAux render₁ pfx fe tl₁) = _
    rw [hie, hk, hr, ihl]
    exact rfl

/-- Equivalent well-formed trees render identically, for every fuel,
prefix and directory predicate. -/
theorem renderTreeF_respects_pequiv (isDir : String → Bool) (repo : String) :
    ∀ (fuel : Nat) (t₁ t₂ : PTree) (pfx : String), WFT t₁ → WFT t₂ → PEquiv t₁ t₂ →
    renderTreeF isDir repo fuel t₁ pfx = renderTreeF isDir repo fuel t₂ pfx := by
  intro fuel
  induction fuel with
  | zero => intro _ _ _ _ _ _; rfl
  | succ fuel ih =>
    intro t₁ t₂ pfx h₁ h₂ heq
    cases t₁ with
    | node cs₁ =>
      cases t₂ with
      | node cs₂ =>
        have hrel : ∀ k, Option.Rel PEquiv (lookupC cs₁ k) (lookupC cs₂ k) := by
          cases heq with | node _ _ hr => exact hr
        have hnd₁ : (keysOf cs₁).Nodup := by
          cases h₁ with | node _ hnd _ => exact hnd
        have hch₁ : ∀ pr ∈ cs₁, WFT pr.2 := by
          cases h₁ with | node _ _ hc => exact hc
        have hnd₂ : (keysOf cs₂).Nodup := by
          cases h₂ with | node _ hnd _ => exact hnd
        have hch₂ : ∀ pr ∈ cs₂, WFT pr.2 := by
          cases h₂ with | node _ _ hc => exact hc
        have hed : emptyDirsOf isDir repo cs₁ = emptyDirsOf isDir repo cs₂ :=
          leaf_bucket_eq (fun name => isDir (pjoin repo name)) hnd₁ hnd₂ hrel
        have hfs : filesOf isDir repo cs₁ = filesOf isDir repo cs₂ :=
          leaf_bucket_eq (fun name => !isDir (pjoin repo name)) hnd₁ hnd₂ hrel
        have hdw := dirs_bucket_forall₂ hnd₁ hnd₂ hrel
        have hW₁ : ∀ pr ∈ dirsWithFilesOf cs₁, WFT pr.2 := by
          intro pr hpr
          exact hch₁ pr (List.mem_of_mem_filter
            ((List.perm_insertionSort nameLe _).subset hpr))
        have hW₂ : ∀ pr ∈ dirsWithFilesOf cs₂, WFT pr.2 := by
          intro pr hpr
          exact hch₂ pr (List.mem_of_mem_filter
            ((List.perm_insertionSort nameLe _).subset hpr))
        have hmid : renderDirsAux (fun sub p => renderTreeF isDir repo fuel sub p) pfx
            (filesOf isDir repo cs₂).isEmpty (dirsWithFilesOf cs₁)
          = renderDirsAux (fun sub p => renderTreeF isDir repo fuel sub p) pfx
            (filesOf isDir repo cs₂).isEmpty (dirsWithFilesOf cs₂) :=
          renderDirsAux_congr _ _ pfx _
            (forall₂_render_of_pequiv isDir repo fuel ih hdw hW₁ hW₂)
        show (emptyDirsOf isDir repo cs₁).map (fun name => pfx ++ "├── " ++ name)
            ++ renderDirsAux (fun sub p => renderTreeF isDir repo fuel sub p) pfx
              (filesOf isDir repo cs₁).isEmpty (dirsWithFilesOf cs₁)
            ++ renderFilesAux pfx (filesOf isDir repo cs₁)
          = (emptyDirsOf isDir repo cs₂).map (fun name => pfx ++ "├── " ++ name)
            ++ renderDirsAux (fun sub p => renderTreeF isDir repo fuel sub p) pfx
              (filesOf isDir repo cs₂).isEmpty (dirsWithFilesOf cs₂)
            ++ renderFilesAux pfx (filesOf isDir repo cs₂)
        rw [hed, hfs, hmid]

/-- C5: the rendered tree string depends only on the set of selected
paths (with multiplicity irrelevant to the nested dict) and on the
directory predicate: permuting the input path sequence leaves the
output byte-for-byte identical (determinism across invocations is
inherent to the pure model). -/
theorem c5_tree_output_order_independent (isDir : String → Bool) (cwd root : String)
    (l₁ l₂ : List String) (h : l₁.Perm l₂) :
    capture_tree_output isDir cwd root l₁ = capture_tree_output isDir cwd root l₂ := by
  have hfuel : (l₁.map (fun p => (strSplit (relpath cwd p root)).length)).sum
      = (l₂.map (fun p => (strSplit (relpath cwd p root)).length)).sum :=
    (h.map _).sum_eq
  show joinNL ("." :: renderTreeF isDir root
      (1 + (l₁.map (fun p => (strSplit (relpath cwd p root)).length)).sum)
      (buildPathTree cwd root l₁) "")
    = joinNL ("." :: renderTreeF isDir root
      (1 + (l₂.map (fun p => (strSplit (relpath cwd p root)).length)).sum)
      (buildPathTree cwd root l₂) "")
  rw [hfuel]
  have htree := renderTreeF_respects_pequiv isDir root
    (1 + (l₂.map (fun p => (strSplit (relpath cwd p root)).length)).sum)
    (buildPathTree cwd root l₁) (buildPathTree cwd root l₂) ""
    (WFT_foldl cwd root l₁ _ WFT_nil) (WFT_foldl cwd root l₂ _ WFT_nil)
    (pequiv_foldl_perm cwd root h (PTree.node []))
  rw [htree]

/-- Witness for C5: swapping two selected paths leaves the rendered
tree unchanged. -/
theorem c5_witness :
    (["/r/a", "/r/sub/x"].Perm ["/r/sub/x", "/r/a"])
      ∧ capture_tree_output (fun _ => false) "/" "/r" ["/r/a", "/r/sub/x"]
        = capture_tree_output (fun _ => false) "/" "/r" ["/r/sub/x", "/r/a"] :=
  ⟨by decide,
    c5_tree_output_order_independent (fun _ => false) "/" "/r"
      ["/r/a", "/r/sub/x"] ["/r/sub/x", "/r/a"] (by decide)⟩

end GitGather
